import Mathlib

/- Verification of the cache-and-connection subsystem of a write-through
   key-value server (kvserver.cpp): a bounded LRU cache backed by a
   recency list plus an index map, a per-worker database connection
   lifecycle manager with a periodic liveness probe, and the
   create/read/delete orchestration handlers.  Outcomes of the external
   store (connection acquisition, query results) are abstracted as small
   "world" oracles; everything else follows the source line by line. -/

namespace KV

/-- Association-list lookup; models `unordered_map::find` and, for the
recency list, locating the node holding a given key (unique in every
reachable state). -/
def lookupA : List (String × String) → String → Option String
  | [], _ => none
  | (k', v) :: rest, k => if k' = k then some v else lookupA rest k

/-- Remove the first entry carrying the given key; models erasing the node
an index iterator points to, and `unordered_map::erase`. -/
def eraseKey : List (String × String) → String → List (String × String)
  | [], _ => []
  | (k', v) :: rest, k => if k' = k then rest else (k', v) :: eraseKey rest k

/-- The keys of an entry list, in order. -/
def keysOf (l : List (String × String)) : List String := l.map Prod.fst

/-- LRU cache state.  `kvcache` is the recency list (head = begin =
most-recently-used, back = least-recently-used).  `kvmap` models
`unordered_map<string, list::iterator>`: each entry records a key together
with the content of the node its iterator designates; the consistency
invariant proved below states that it always agrees with the list. -/
structure LRUCache where
  capacity : Nat
  kvcache : List (String × String)
  kvmap : List (String × String)
  deriving DecidableEq

/-- `LRUCache(cap)`: both containers start empty. -/
def LRUCache.empty (cap : Nat) : LRUCache := ⟨cap, [], []⟩

/-- `LRUCache::put`: erase the old node if the key is indexed, push the
new pair at the front, point the index at it, then evict the back entry
if the size now exceeds capacity.  (`getLastD` never uses its default:
the pushed list is nonempty.) -/
def LRUCache.put (c : LRUCache) (k v : String) : LRUCache :=
  let l0 := if (lookupA c.kvmap k).isSome then eraseKey c.kvcache k else c.kvcache
  let l1 := (k, v) :: l0
  let m1 := (k, v) :: eraseKey c.kvmap k
  if c.capacity < l1.length then
    ⟨c.capacity, l1.dropLast, eraseKey m1 (l1.getLastD (k, v)).1⟩
  else
    ⟨c.capacity, l1, m1⟩

/-- `LRUCache::get`: on an index hit, read the value held by the node,
move the node to the front and repoint the index; on a miss, return
`none` with no side effect. -/
def LRUCache.get (c : LRUCache) (k : String) : Option String × LRUCache :=
  match lookupA c.kvmap k with
  | none => (none, c)
  | some v =>
    (some v, ⟨c.capacity, (k, v) :: eraseKey c.kvcache k, (k, v) :: eraseKey c.kvmap k⟩)

/-- `LRUCache::remove`: erase the node and its index entry if present,
otherwise do nothing. -/
def LRUCache.remove (c : LRUCache) (k : String) : LRUCache :=
  match lookupA c.kvmap k with
  | none => c
  | some _ => ⟨c.capacity, eraseKey c.kvcache k, eraseKey c.kvmap k⟩

/-- The cache representation invariant: the recency list never exceeds
capacity, keys are unique in both containers, and the index agrees with
the list (a key is indexed iff its node is in the list, with the index
designating that node's content). -/
def Inv (c : LRUCache) : Prop :=
  c.kvcache.length ≤ c.capacity ∧
  (keysOf c.kvcache).Nodup ∧
  (keysOf c.kvmap).Nodup ∧
  ∀ k, lookupA c.kvmap k = lookupA c.kvcache k

/-- Cache operations, for stating reachability from the empty cache. -/
inductive Op where
  | put (k v : String)
  | get (k : String)
  | remove (k : String)

def applyOp (c : LRUCache) : Op → LRUCache
  | .put k v => c.put k v
  | .get k => (c.get k).2
  | .remove k => c.remove k

/-- The state after running a sequence of operations on an empty cache. -/
def run (cap : Nat) (ops : List Op) : LRUCache :=
  ops.foldl applyOp (LRUCache.empty cap)

/-- Fold a list of puts over the cache (used to state the recency claim). -/
def putSeq (c : LRUCache) : List (String × String) → LRUCache
  | [] => c
  | (k, v) :: rest => putSeq (c.put k v) rest

/-- C-locale `isspace`, the characters std::stoll skips as a prefix. -/
def isSpaceC (c : Char) : Bool :=
  c = ' ' || c = '\t' || c = '\n' || c = '\x0b' || c = '\x0c' || c = '\r'

/-- Decimal digit accumulation, most significant first. -/
def digitsToNat : List Char → Nat → Nat
  | [], acc => acc
  | c :: cs, acc => digitsToNat cs (acc * 10 + (c.toNat - 48))

/-- `std::stoll(s, &pos)`: skip C whitespace, an optional sign, then
base-10 digits; returns the value and the number of characters consumed.
`none` models the invalid-argument (no digits) and out-of-range (beyond
int64) exceptions, both caught by the callers, which then report failure. -/
def stollParse (s : String) : Option (Int × Nat) :=
  let cs := s.toList
  let ws := cs.takeWhile isSpaceC
  let rest := cs.dropWhile isSpaceC
  match rest with
  | '-' :: r =>
    let ds := r.takeWhile Char.isDigit
    if ds.isEmpty then none
    else
      let v : Int := -(digitsToNat ds 0 : Int)
      if v < -(2 ^ 63) then none
      else some (v, ws.length + 1 + ds.length)
  | '+' :: r =>
    let ds := r.takeWhile Char.isDigit
    if ds.isEmpty then none
    else
      let v : Int := (digitsToNat ds 0 : Int)
      if (2 ^ 63 : Int) - 1 < v then none
      else some (v, ws.length + 1 + ds.length)
  | r =>
    let ds := r.takeWhile Char.isDigit
    if ds.isEmpty then none
    else
      let v : Int := (digitsToNat ds 0 : Int)
      if (2 ^ 63 : Int) - 1 < v then none
      else some (v, ws.length + ds.length)

/-- `str_to_int64`: empty strings are rejected, then std::stoll must
consume the whole string. -/
def str_to_int64 (s : String) : Option Int :=
  if s.isEmpty then none
  else
    match stollParse s with
    | none => none
    | some (v, pos) => if pos = s.length then some v else none

/-- Parsed JSON values as the handlers inspect them.  A floating-point
number is carried as the exact rational its literal denotes; the parser's
double rounding is not modelled (no claim depends on it). -/
inductive JVal where
  | jint (i : Int)
  | jstr (s : String)
  | jfloat (q : ℚ)
  | jother
  deriving DecidableEq

/-- `static_cast<int64_t>` applied to a double: truncation toward zero. -/
def truncToInt (q : ℚ) : Int := Int.tdiv q.num (Int.ofNat q.den)

/-- `json_to_int64`: integers pass through, strings go through the same
stoll logic as `str_to_int64`, floats are truncated toward zero, anything
else is rejected. -/
def json_to_int64 : JVal → Option Int
  | .jint i => some i
  | .jstr s => str_to_int64 s
  | .jfloat q => some (truncToInt q)
  | .jother => none

/-- `to_string_json_value`: strings pass through, integral numbers print
in decimal.  The default ostringstream rendering of a double and
`json::dump` of other values are abbreviated (no claim inspects them). -/
def to_string_json_value : JVal → String
  | .jstr s => s
  | .jint i => toString i
  | .jfloat q => toString q
  | .jother => "null"

/-- Observable interactions of a handler with the store and the cache. -/
inductive Event where
  | connAcquire (ok : Bool)
  | dbUpsert (k : Int) (v : String) (ok : Bool)
  | dbRead (k : Int) (ok : Bool)
  | dbDelete (k : Int) (ok : Bool) (rows : Nat)
  | cachePut (k v : String)
  | cacheGet (k : String) (hit : Bool)
  | cacheRemove (k : String)
  deriving DecidableEq

/-- HTTP status code and body, as built by `crow::response`. -/
abbrev Resp := Nat × String

/-- Outcome oracle for `db_create_or_update`: connection acquisition
fails, `PQexecParams` returns null, or it returns a result whose status
is (`true`) or is not (`false`) `PGRES_COMMAND_OK`. -/
inductive UpsertWorld where
  | noConn
  | nullRes
  | exec (ok : Bool)
  deriving DecidableEq

/-- `db_create_or_update`: false on connection failure, null result, or a
non-COMMAND_OK status; true exactly when the upsert is confirmed. -/
def db_create_or_update (w : UpsertWorld) (k : Int) (v : String) : Bool × List Event :=
  match w with
  | .noConn => (false, [.connAcquire false])
  | .nullRes => (false, [.connAcquire true, .dbUpsert k v false])
  | .exec ok => (ok, [.connAcquire true, .dbUpsert k v ok])

/-- Outcome oracle for `db_read`: connection failure, null result, a
status other than `PGRES_TUPLES_OK`, or a tuple result carrying the first
row's value (`none` = zero rows). -/
inductive ReadWorld where
  | noConn
  | nullRes
  | badStatus
  | rows (r : Option String)
  deriving DecidableEq

/-- `db_read`: returns the value only on a TUPLES_OK result with at least
one row; every failure mode and the zero-row case all return `none`. -/
def db_read (w : ReadWorld) (k : Int) : Option String × List Event :=
  match w with
  | .noConn => (none, [.connAcquire false])
  | .nullRes => (none, [.connAcquire true, .dbRead k false])
  | .badStatus => (none, [.connAcquire true, .dbRead k false])
  | .rows r => (r, [.connAcquire true, .dbRead k r.isSome])

/-- Outcome oracle for `db_delete`: connection failure, null result, or a
result with a command status and an affected-row count (`PQcmdTuples`). -/
inductive DeleteWorld where
  | noConn
  | nullRes
  | result (cmdOk : Bool) (rows : Nat)
  deriving DecidableEq

/-- `db_delete`: true exactly when the status is COMMAND_OK and the
affected-row count is positive. -/
def db_delete (w : DeleteWorld) (k : Int) : Bool × List Event :=
  match w with
  | .noConn => (false, [.connAcquire false])
  | .nullRes => (false, [.connAcquire true, .dbDelete k false 0])
  | .result ok n => (ok && decide (0 < n), [.connAcquire true, .dbDelete k ok n])

/-- The `/create` route handler, after body/field validation: parse the
key to int64, stringify the value, upsert in the store, and only on a
confirmed write put the canonical key string into the cache. -/
def createHandler (w : UpsertWorld) (jkey jval : JVal) (c : LRUCache) :
    Resp × LRUCache × List Event :=
  match json_to_int64 jkey with
  | none => ((400, "Invalid key (expected integer)"), c, [])
  | some kn =>
    let value := to_string_json_value jval
    let r := db_create_or_update w kn value
    if r.1 then
      ((200, "Created"), c.put (toString kn) value, r.2 ++ [.cachePut (toString kn) value])
    else
      ((500, "DB Error"), c, r.2)

/-- The `/read/<string>` route handler: try the cache under the raw path
string; on a miss parse the key, query the store, and on a hit populate
the cache (again under the raw path string). -/
def readHandler (w : ReadWorld) (key_path : String) (c : LRUCache) :
    Resp × LRUCache × List Event :=
  match c.get key_path with
  | (some v, c1) => ((200, v), c1, [.cacheGet key_path true])
  | (none, c1) =>
    match str_to_int64 key_path with
    | none => ((400, "Invalid key"), c1, [.cacheGet key_path false])
    | some kn =>
      let r := db_read w kn
      match r.1 with
      | some v =>
        ((200, v), c1.put key_path v, .cacheGet key_path false :: r.2 ++ [.cachePut key_path v])
      | none => ((404, "Not found"), c1, .cacheGet key_path false :: r.2)

/-- The `/delete/<string>` route handler: parse the key, delete in the
store, and only on a confirmed removal drop the raw path string from the
cache. -/
def deleteHandler (w : DeleteWorld) (key_path : String) (c : LRUCache) :
    Resp × LRUCache × List Event :=
  match str_to_int64 key_path with
  | none => ((400, "Invalid key"), c, [])
  | some kn =>
    let r := db_delete w kn
    if r.1 then
      ((200, "Deleted"), c.remove key_path, r.2 ++ [.cacheRemove key_path])
    else
      ((500, "Not found"), c, r.2)

/-- Scans a trace and checks that every cache put happens strictly after
some store upsert that reported success. -/
def cachePutConfirmed : Bool → List Event → Bool
  | _, [] => true
  | seen, .dbUpsert _ _ ok :: rest => cachePutConfirmed (seen || ok) rest
  | seen, .cachePut _ _ :: rest => seen && cachePutConfirmed seen rest
  | seen, _ :: rest => cachePutConfirmed seen rest

/-- Per-worker connection state: the (optional) owned connection handle,
identified by a number so that "the existing connection" and "a new
connection" are distinguishable, and the last liveness-check timestamp in
seconds. -/
structure PGState where
  conn : Option Nat
  lastPing : Nat
  deriving DecidableEq

/-- Oracle for one `get_connection` call: the `PQstatus` of the currently
held connection, the outcome of the `SELECT 1` probe, the outcome of a
`PQconnectdb` (at most one happens per call), and the identity the new
connection would get. -/
structure PGWorld where
  statusOk : Bool
  probeOk : Bool
  connectOk : Bool
  newConnId : Nat
  deriving DecidableEq

/-- Observable libpq interactions of `get_connection`. -/
inductive PGEvent where
  | probe (ok : Bool)
  | finish
  | connect (ok : Bool)
  deriving DecidableEq

/-- `get_connection`: lazily connect when the slot is empty or the held
connection's status is bad; otherwise, once 5 seconds have elapsed since
`last_ping`, probe with `SELECT 1`, and on probe failure close the stale
connection and attempt exactly one reconnection. -/
def get_connection (s : PGState) (now : Nat) (w : PGWorld) :
    Option Nat × PGState × List PGEvent :=
  match s.conn with
  | none =>
    if w.connectOk then (some w.newConnId, ⟨some w.newConnId, now⟩, [.connect true])
    else (none, ⟨none, s.lastPing⟩, [.connect false])
  | some cid =>
    if w.statusOk = false then
      if w.connectOk then
        (some w.newConnId, ⟨some w.newConnId, now⟩, [.finish, .connect true])
      else (none, ⟨none, s.lastPing⟩, [.finish, .connect false])
    else if 5 ≤ now - s.lastPing then
      if w.probeOk then (some cid, ⟨some cid, now⟩, [.probe true])
      else if w.connectOk then
        (some w.newConnId, ⟨some w.newConnId, now⟩, [.probe false, .finish, .connect true])
      else (none, ⟨none, s.lastPing⟩, [.probe false, .finish, .connect false])
    else (some cid, s, [])

/-! ### Association-list lemmas -/

theorem lookupA_nil (k : String) : lookupA [] k = none := rfl

theorem lookupA_cons (k' v k : String) (rest : List (String × String)) :
    lookupA ((k', v) :: rest) k = if k' = k then some v else lookupA rest k := rfl

theorem keysOf_nil : keysOf [] = [] := rfl

theorem keysOf_cons (p : String × String) (l : List (String × String)) :
    keysOf (p :: l) = p.1 :: keysOf l := rfl

theorem mem_keysOf_iff {l : List (String × String)} {k : String} :
    k ∈ keysOf l ↔ (lookupA l k).isSome := by
  induction l with
  | nil => simp [keysOf, lookupA]
  | cons p rest ih =>
    obtain ⟨k', v⟩ := p
    by_cases h : k' = k
    · subst h
      simp [keysOf_cons, lookupA_cons]
    · simp [keysOf_cons, lookupA_cons, h, ih, Ne.symm h]

theorem lookupA_eq_none_iff {l : List (String × String)} {k : String} :
    lookupA l k = none ↔ k ∉ keysOf l := by
  rw [mem_keysOf_iff]
  cases h : lookupA l k <;> simp [h]

theorem eraseKey_nil (k : String) : eraseKey [] k = [] := rfl

theorem eraseKey_cons_self {k' : String} (v k : String) (rest : List (String × String))
    (h : k' = k) : eraseKey ((k', v) :: rest) k = rest := by
  simp [eraseKey, h]

theorem eraseKey_cons_ne {k' : String} (v k : String) (rest : List (String × String))
    (h : k' ≠ k) : eraseKey ((k', v) :: rest) k = (k', v) :: eraseKey rest k := by
  simp [eraseKey, h]

theorem eraseKey_of_not_mem {l : List (String × String)} {k : String}
    (h : k ∉ keysOf l) : eraseKey l k = l := by
  induction l with
  | nil => rfl
  | cons p rest ih =>
    obtain ⟨k', v⟩ := p
    rw [keysOf_cons, List.mem_cons] at h
    push_neg at h
    rw [eraseKey_cons_ne v k rest (Ne.symm h.1), ih h.2]

theorem length_eraseKey_of_mem {l : List (String × String)} {k : String}
    (h : k ∈ keysOf l) : (eraseKey l k).length + 1 = l.length := by
  induction l with
  | nil => simp [keysOf] at h
  | cons p rest ih =>
    obtain ⟨k', v⟩ := p
    by_cases hk : k' = k
    · rw [eraseKey_cons_self v k rest hk]
      simp
    · rw [keysOf_cons] at h
      rcases List.mem_cons.mp h with h1 | h2
      · exact absurd h1.symm hk
      · rw [eraseKey_cons_ne v k rest hk]
        simp [ih h2]

theorem keysOf_eraseKey_subset {l : List (String × String)} {k : String} :
    keysOf (eraseKey l k) ⊆ keysOf l := by
  induction l with
  | nil => simp [eraseKey]
  | cons p rest ih =>
    obtain ⟨k', v⟩ := p
    by_cases hk : k' = k
    · rw [eraseKey_cons_self v k rest hk, keysOf_cons]
      exact List.subset_cons_self _ _
    · rw [eraseKey_cons_ne v k rest hk, keysOf_cons, keysOf_cons]
      exact List.cons_subset_cons _ ih

theorem lookupA_eraseKey_ne {l : List (String × String)} {k k' : String}
    (h : k' ≠ k) : lookupA (eraseKey l k) k' = lookupA l k' := by
  induction l with
  | nil => rfl
  | cons p rest ih =>
    obtain ⟨a, b⟩ := p
    by_cases ha : a = k
    · rw [eraseKey_cons_self b k rest ha, lookupA_cons]
      have : ¬ a = k' := by rw [ha]; exact fun hh => h hh.symm
      rw [if_neg this]
    · rw [eraseKey_cons_ne b k rest ha, lookupA_cons, lookupA_cons, ih]

theorem not_mem_keysOf_eraseKey {l : List (String × String)} {k : String}
    (h : (keysOf l).Nodup) : k ∉ keysOf (eraseKey l k) := by
  induction l with
  | nil => simp [eraseKey, keysOf]
  | cons p rest ih =>
    obtain ⟨a, b⟩ := p
    rw [keysOf_cons] at h
    by_cases ha : a = k
    · rw [eraseKey_cons_self b k rest ha]
      subst ha
      exact (List.nodup_cons.mp h).1
    · rw [eraseKey_cons_ne b k rest ha, keysOf_cons]
      intro hmem
      rcases List.mem_cons.mp hmem with h1 | h2
      · exact ha h1.symm
      · exact ih (List.nodup_cons.mp h).2 h2

theorem nodup_keysOf_eraseKey {l : List (String × String)} {k : String}
    (h : (keysOf l).Nodup) : (keysOf (eraseKey l k)).Nodup := by
  induction l with
  | nil => simp [eraseKey, keysOf]
  | cons p rest ih =>
    obtain ⟨a, b⟩ := p
    rw [keysOf_cons] at h
    obtain ⟨hna, hnd⟩ := List.nodup_cons.mp h
    by_cases ha : a = k
    · rw [eraseKey_cons_self b k rest ha]
      exact hnd
    · rw [eraseKey_cons_ne b k rest ha, keysOf_cons]
      refine List.nodup_cons.mpr ⟨fun hmem => hna (keysOf_eraseKey_subset hmem), ih hnd⟩

theorem lookupA_append_some {l1 : List (String × String)} {k v : String}
    (l2 : List (String × String)) (h : lookupA l1 k = some v) :
    lookupA (l1 ++ l2) k = some v := by
  induction l1 with
  | nil => simp [lookupA] at h
  | cons p rest ih =>
    obtain ⟨a, b⟩ := p
    by_cases ha : a = k
    · rw [lookupA_cons, if_pos ha] at h
      rw [List.cons_append, lookupA_cons, if_pos ha]
      exact h
    · rw [lookupA_cons, if_neg ha] at h
      rw [List.cons_append, lookupA_cons, if_neg ha]
      exact ih h

theorem lookupA_append_none {l1 : List (String × String)} {k : String}
    (l2 : List (String × String)) (h : lookupA l1 k = none) :
    lookupA (l1 ++ l2) k = lookupA l2 k := by
  induction l1 with
  | nil => rfl
  | cons p rest ih =>
    obtain ⟨a, b⟩ := p
    by_cases ha : a = k
    · rw [lookupA_cons, if_pos ha] at h
      exact absurd h (by simp)
    · rw [lookupA_cons, if_neg ha] at h
      rw [List.cons_append, lookupA_cons, if_neg ha]
      exact ih h

theorem dropLast_cons_of_ne_nil {α : Type} (a : α) {l : List α} (h : l ≠ []) :
    (a :: l).dropLast = a :: l.dropLast := by
  cases l with
  | nil => exact absurd rfl h
  | cons b t => rfl

theorem dropLast_append_of_ne_nil {α : Type} (l : List α) {m : List α} (h : m ≠ []) :
    (l ++ m).dropLast = l ++ m.dropLast := by
  induction l with
  | nil => rfl
  | cons a t ih =>
    have ht : t ++ m ≠ [] := by
      intro hc
      rcases List.append_eq_nil.mp hc with ⟨_, h2⟩
      exact h h2
    rw [List.cons_append, dropLast_cons_of_ne_nil a ht, ih, List.cons_append]

theorem dropLast_append_getLastD {α : Type} {l : List α} (h : l ≠ []) (d : α) :
    l.dropLast ++ [l.getLastD d] = l := by
  induction l generalizing d with
  | nil => exact absurd rfl h
  | cons a t ih =>
    cases t with
    | nil => rfl
    | cons b t2 =>
      rw [List.getLastD_cons, dropLast_cons_of_ne_nil a (by simp)]
      rw [List.cons_append, ih (by simp)]

/-! ### Characterizations of the cache operations -/

theorem put_of_mem (c : LRUCache) (k v : String) (hInv : Inv c)
    (hmem : k ∈ keysOf c.kvcache) :
    c.put k v = ⟨c.capacity, (k, v) :: eraseKey c.kvcache k, (k, v) :: eraseKey c.kvmap k⟩ := by
  obtain ⟨hlen, hndc, hndm, hagree⟩ := hInv
  have hsome : (lookupA c.kvmap k).isSome = true := by
    rw [hagree k]
    exact mem_keysOf_iff.mp hmem
  have hL : (eraseKey c.kvcache k).length + 1 = c.kvcache.length :=
    length_eraseKey_of_mem hmem
  have hnlt : ¬ c.capacity < ((k, v) :: eraseKey c.kvcache k).length := by
    simp only [List.length_cons]
    omega
  unfold LRUCache.put
  simp only [hsome, if_true, hnlt, if_false]

theorem put_of_not_mem_small (c : LRUCache) (k v : String) (hInv : Inv c)
    (hnot : k ∉ keysOf c.kvcache) (hlt : c.kvcache.length < c.capacity) :
    c.put k v = ⟨c.capacity, (k, v) :: c.kvcache, (k, v) :: eraseKey c.kvmap k⟩ := by
  obtain ⟨hlen, hndc, hndm, hagree⟩ := hInv
  have hnone : (lookupA c.kvmap k).isSome = false := by
    rw [hagree k, lookupA_eq_none_iff.mpr hnot]
    rfl
  have hnlt : ¬ c.capacity < ((k, v) :: c.kvcache).length := by
    simp only [List.length_cons]
    omega
  unfold LRUCache.put
  simp only [hnone, Bool.false_eq_true, if_false, hnlt, if_true]

theorem getLastD_mem {α : Type} {l : List α} (h : l ≠ []) (d : α) :
    l.getLastD d ∈ l := by
  induction l generalizing d with
  | nil => exact absurd rfl h
  | cons a t ih =>
    cases t with
    | nil => simp [List.getLastD_cons]
    | cons b t2 =>
      rw [List.getLastD_cons]
      exact List.mem_cons_of_mem a (ih (by simp) b)

theorem put_of_not_mem_full (c : LRUCache) (k v : String) (hInv : Inv c)
    (hnot : k ∉ keysOf c.kvcache) (hfull : c.kvcache.length = c.capacity)
    (hcap : 0 < c.capacity) :
    c.put k v = ⟨c.capacity, (k, v) :: c.kvcache.dropLast,
      (k, v) :: eraseKey (eraseKey c.kvmap k) (c.kvcache.getLastD (k, v)).1⟩ := by
  obtain ⟨hlen, hndc, hndm, hagree⟩ := hInv
  have hne : c.kvcache ≠ [] := by
    intro h
    rw [h] at hfull
    simp only [List.length_nil] at hfull
    omega
  have hnone : (lookupA c.kvmap k).isSome = false := by
    rw [hagree k, lookupA_eq_none_iff.mpr hnot]
    rfl
  have hlt : c.capacity < ((k, v) :: c.kvcache).length := by
    simp only [List.length_cons]
    omega
  have hkne : k ≠ (c.kvcache.getLastD (k, v)).1 := by
    intro h
    apply hnot
    rw [h]
    exact List.mem_map_of_mem Prod.fst (getLastD_mem hne (k, v))
  unfold LRUCache.put
  simp only [hnone, Bool.false_eq_true, if_false, hlt, if_true,
    List.getLastD_cons, dropLast_cons_of_ne_nil (k, v) hne,
    eraseKey_cons_ne v _ _ hkne]

/-- `put` preserves the representation invariant. -/
theorem put_inv (c : LRUCache) (k v : String) (h : Inv c) : Inv (c.put k v) := by
  obtain ⟨hlen, hndc, hndm, hagree⟩ := h
  by_cases hmem : k ∈ keysOf c.kvcache
  · rw [put_of_mem c k v ⟨hlen, hndc, hndm, hagree⟩ hmem]
    refine ⟨?_, ?_, ?_, ?_⟩
    · simp only [List.length_cons]
      have := length_eraseKey_of_mem (l := c.kvcache) hmem
      omega
    · rw [keysOf_cons]
      exact List.nodup_cons.mpr ⟨not_mem_keysOf_eraseKey hndc, nodup_keysOf_eraseKey hndc⟩
    · rw [keysOf_cons]
      exact List.nodup_cons.mpr ⟨not_mem_keysOf_eraseKey hndm, nodup_keysOf_eraseKey hndm⟩
    · intro k'
      by_cases hk : k = k'
      · simp [lookupA_cons, hk]
      · simp only [lookupA_cons, if_neg hk]
        rw [lookupA_eraseKey_ne (Ne.symm hk), lookupA_eraseKey_ne (Ne.symm hk), hagree k']
  · rcases Nat.lt_or_ge c.kvcache.length c.capacity with hlt | hge
    · rw [put_of_not_mem_small c k v ⟨hlen, hndc, hndm, hagree⟩ hmem hlt]
      refine ⟨?_, ?_, ?_, ?_⟩
      · simp only [List.length_cons]
        omega
      · rw [keysOf_cons]
        exact List.nodup_cons.mpr ⟨hmem, hndc⟩
      · rw [keysOf_cons]
        exact List.nodup_cons.mpr ⟨not_mem_keysOf_eraseKey hndm, nodup_keysOf_eraseKey hndm⟩
      · intro k'
        by_cases hk : k = k'
        · simp [lookupA_cons, hk]
        · simp only [lookupA_cons, if_neg hk]
          rw [lookupA_eraseKey_ne (Ne.symm hk), hagree k']
    · have hfull : c.kvcache.length = c.capacity := Nat.le_antisymm hlen hge
      by_cases hcap : 0 < c.capacity
      · rw [put_of_not_mem_full c k v ⟨hlen, hndc, hndm, hagree⟩ hmem hfull hcap]
        have hne : c.kvcache ≠ [] := by
          intro hc
          rw [hc] at hfull
          simp only [List.length_nil] at hfull
          omega
        have hdecomp : c.kvcache.dropLast ++ [c.kvcache.getLastD (k, v)] = c.kvcache :=
          dropLast_append_getLastD hne (k, v)
        have hkeys : keysOf c.kvcache.dropLast ++ [(c.kvcache.getLastD (k, v)).1] =
            keysOf c.kvcache := by
          conv_rhs => rw [← hdecomp]
          simp [keysOf]
        have hmnone : k ∉ keysOf c.kvmap := by
          rw [← lookupA_eq_none_iff, hagree k, lookupA_eq_none_iff]
          exact hmem
        have hlastnd : (c.kvcache.getLastD (k, v)).1 ∉ keysOf c.kvcache.dropLast := by
          have : ((keysOf c.kvcache.dropLast) ++ [(c.kvcache.getLastD (k, v)).1]).Nodup := by
            rw [hkeys]
            exact hndc
          intro hc
          rcases List.nodup_append.mp this with ⟨_, _, hdisj⟩
          exact hdisj hc (List.mem_singleton_self _)
        refine ⟨?_, ?_, ?_, ?_⟩
        · simp only [List.length_cons, List.length_dropLast]
          omega
        · rw [keysOf_cons]
          refine List.nodup_cons.mpr ⟨?_, ?_⟩
          · intro hc
            apply hmem
            rw [← hkeys]
            exact List.mem_append_left _ hc
          · have : (keysOf c.kvcache.dropLast ++ [(c.kvcache.getLastD (k, v)).1]).Nodup := by
              rw [hkeys]
              exact hndc
            exact (List.nodup_append.mp this).1
        · rw [keysOf_cons]
          refine List.nodup_cons.mpr ⟨?_, nodup_keysOf_eraseKey (nodup_keysOf_eraseKey hndm)⟩
          intro hc
          exact hmnone (keysOf_eraseKey_subset (keysOf_eraseKey_subset hc))
        · intro k'
          by_cases hk : k = k'
          · simp [lookupA_cons, hk]
          · simp only [lookupA_cons, if_neg hk]
            by_cases hk2 : k' = (c.kvcache.getLastD (k, v)).1
            · rw [hk2]
              rw [lookupA_eq_none_iff.mpr (not_mem_keysOf_eraseKey (nodup_keysOf_eraseKey hndm))]
              rw [lookupA_eq_none_iff.mpr hlastnd]
            · rw [lookupA_eraseKey_ne hk2, lookupA_eraseKey_ne (Ne.symm hk), hagree k']
              conv_lhs => rw [← hdecomp]
              cases hcase : lookupA c.kvcache.dropLast k' with
              | some v2 => rw [lookupA_append_some _ hcase]
              | none =>
                rw [lookupA_append_none _ hcase, lookupA_cons,
                  if_neg (fun hc => hk2 hc.symm)]
                rfl
      · have hcap0 : c.capacity = 0 := Nat.eq_zero_of_not_pos hcap
        have hnil : c.kvcache = [] := by
          have : c.kvcache.length = 0 := by omega
          exact List.length_eq_zero.mp this
        have hmnil : ∀ k', lookupA c.kvmap k' = none := by
          intro k'
          rw [hagree k', hnil]
          rfl
        have hnone : (lookupA c.kvmap k).isSome = false := by
          rw [hmnil k]
          rfl
        unfold LRUCache.put
        simp only [hnone, Bool.false_eq_true, if_false, hnil]
        have hlt : c.capacity < ([(k, v)] : List (String × String)).length := by
          simp [hcap0]
        simp only [hlt, if_true]
        have h1 : ([(k, v)] : List (String × String)).dropLast = [] := rfl
        have h2 : (([(k, v)] : List (String × String)).getLastD (k, v)).1 = k := rfl
        rw [h1, h2, eraseKey_cons_self v k _ rfl]
        refine ⟨by simp, by simp [keysOf], nodup_keysOf_eraseKey hndm, ?_⟩
        intro k'
        by_cases hk : k' = k
        · rw [hk, lookupA_eq_none_iff.mpr (not_mem_keysOf_eraseKey hndm)]
          rfl
        · rw [lookupA_eraseKey_ne hk, hmnil k']
          rfl

theorem get_eq_of_none (c : LRUCache) (k : String) (h : lookupA c.kvmap k = none) :
    c.get k = (none, c) := by
  unfold LRUCache.get
  rw [h]

theorem get_eq_of_some (c : LRUCache) (k v : String) (h : lookupA c.kvmap k = some v) :
    c.get k = (some v,
      ⟨c.capacity, (k, v) :: eraseKey c.kvcache k, (k, v) :: eraseKey c.kvmap k⟩) := by
  unfold LRUCache.get
  rw [h]

theorem get_snd_of_some (c : LRUCache) (k v : String) (h : lookupA c.kvmap k = some v) :
    (c.get k).2 =
      ⟨c.capacity, (k, v) :: eraseKey c.kvcache k, (k, v) :: eraseKey c.kvmap k⟩ := by
  rw [get_eq_of_some c k v h]

theorem get_fst_eq (c : LRUCache) (k : String) : (c.get k).1 = lookupA c.kvmap k := by
  cases h : lookupA c.kvmap k with
  | none => rw [get_eq_of_none c k h]
  | some v => rw [get_eq_of_some c k v h]

theorem get_miss_state (c : LRUCache) (k : String) (h : (c.get k).1 = none) :
    (c.get k).2 = c := by
  rw [get_fst_eq] at h
  rw [get_eq_of_none c k h]

/-- `get` preserves the representation invariant. -/
theorem get_inv (c : LRUCache) (k : String) (h : Inv c) : Inv (c.get k).2 := by
  obtain ⟨hlen, hndc, hndm, hagree⟩ := h
  cases hl : lookupA c.kvmap k with
  | none =>
    rw [get_eq_of_none c k hl]
    exact ⟨hlen, hndc, hndm, hagree⟩
  | some v =>
    rw [get_snd_of_some c k v hl]
    have hmem : k ∈ keysOf c.kvcache := by
      rw [mem_keysOf_iff, ← hagree k, hl]
      rfl
    refine ⟨?_, ?_, ?_, ?_⟩
    · simp only [List.length_cons]
      have := length_eraseKey_of_mem (l := c.kvcache) hmem
      omega
    · rw [keysOf_cons]
      exact List.nodup_cons.mpr ⟨not_mem_keysOf_eraseKey hndc, nodup_keysOf_eraseKey hndc⟩
    · rw [keysOf_cons]
      exact List.nodup_cons.mpr ⟨not_mem_keysOf_eraseKey hndm, nodup_keysOf_eraseKey hndm⟩
    · intro k'
      by_cases hk : k = k'
      · simp [lookupA_cons, hk]
      · simp only [lookupA_cons, if_neg hk]
        rw [lookupA_eraseKey_ne (Ne.symm hk), lookupA_eraseKey_ne (Ne.symm hk), hagree k']

theorem remove_eq_of_none (c : LRUCache) (k : String) (h : lookupA c.kvmap k = none) :
    c.remove k = c := by
  unfold LRUCache.remove
  rw [h]

theorem remove_eq_of_some (c : LRUCache) (k v : String) (h : lookupA c.kvmap k = some v) :
    c.remove k = ⟨c.capacity, eraseKey c.kvcache k, eraseKey c.kvmap k⟩ := by
  unfold LRUCache.remove
  rw [h]

/-- `remove` preserves the representation invariant. -/
theorem remove_inv (c : LRUCache) (k : String) (h : Inv c) : Inv (c.remove k) := by
  obtain ⟨hlen, hndc, hndm, hagree⟩ := h
  cases hl : lookupA c.kvmap k with
  | none =>
    rw [remove_eq_of_none c k hl]
    exact ⟨hlen, hndc, hndm, hagree⟩
  | some v =>
    rw [remove_eq_of_some c k v hl]
    refine ⟨?_, nodup_keysOf_eraseKey hndc, nodup_keysOf_eraseKey hndm, ?_⟩
    · show (eraseKey c.kvcache k).length ≤ c.capacity
      have hmem : k ∈ keysOf c.kvcache := by
        rw [mem_keysOf_iff, ← hagree k, hl]
        rfl
      have := length_eraseKey_of_mem (l := c.kvcache) hmem
      omega
    · intro k'
      by_cases hk : k' = k
      · rw [hk]
        rw [lookupA_eq_none_iff.mpr (not_mem_keysOf_eraseKey hndm)]
        rw [lookupA_eq_none_iff.mpr (not_mem_keysOf_eraseKey hndc)]
      · rw [lookupA_eraseKey_ne hk, lookupA_eraseKey_ne hk, hagree k']

/-- Every operation preserves the representation invariant. -/
theorem applyOp_inv (c : LRUCache) (op : Op) (h : Inv c) : Inv (applyOp c op) := by
  cases op with
  | put k v => exact put_inv c k v h
  | get k => exact get_inv c k h
  | remove k => exact remove_inv c k h

theorem empty_inv (cap : Nat) : Inv (LRUCache.empty cap) := by
  refine ⟨by simp [LRUCache.empty], by simp [LRUCache.empty, keysOf], by
    simp [LRUCache.empty, keysOf], fun k => rfl⟩

theorem foldl_inv (ops : List Op) (c : LRUCache) (h : Inv c) :
    Inv (ops.foldl applyOp c) := by
  induction ops generalizing c with
  | nil => exact h
  | cons op rest ih => exact ih (applyOp c op) (applyOp_inv c op h)

/-! ### The recency argument -/

theorem keysOf_append (l1 l2 : List (String × String)) :
    keysOf (l1 ++ l2) = keysOf l1 ++ keysOf l2 := by
  simp [keysOf]

theorem keysOf_dropLast_subset (l : List (String × String)) :
    keysOf l.dropLast ⊆ keysOf l := by
  intro a ha
  rw [keysOf, List.map_dropLast] at ha
  exact (List.dropLast_sublist (keysOf l)).subset ha

/-- Key lemma for the recency property: if `k` sits after a prefix `pre`
in the recency list, then a run of pairwise-distinct fresh puts keeps `k`
cached as long as the prefix length plus the number of puts stays below
capacity (each fresh put grows the prefix by one; eviction only ever
removes entries strictly behind `k`). -/
theorem put_capacity (c : LRUCache) (k v : String) : (c.put k v).capacity = c.capacity := by
  unfold LRUCache.put
  dsimp only
  split <;> split <;> rfl

theorem putSeq_keeps_mem (k : String) (ps : List (String × String)) :
    ∀ (c : LRUCache) (pre suf : List (String × String)) (vk : String),
      Inv c → c.kvcache = pre ++ (k, vk) :: suf →
      (ps.map Prod.fst).Nodup →
      (∀ p ∈ ps, p.1 ∉ keysOf c.kvcache) →
      pre.length + ps.length < c.capacity →
      k ∈ keysOf (putSeq c ps).kvcache := by
  induction ps with
  | nil =>
    intro c pre suf vk hInv hdec hnd hfresh hbound
    show k ∈ keysOf c.kvcache
    rw [hdec]
    exact List.mem_map_of_mem Prod.fst
      (List.mem_append_right pre (List.mem_cons_self (k, vk) suf))
  | cons p rest ih =>
    obtain ⟨f, fv⟩ := p
    intro c pre suf vk hInv hdec hnd hfresh hbound
    simp only [List.length_cons] at hbound
    have hf : f ∉ keysOf c.kvcache := hfresh (f, fv) (List.mem_cons_self _ _)
    have hInv' := put_inv c f fv hInv
    have hndtail : (rest.map Prod.fst).Nodup := by
      rw [List.map_cons] at hnd
      exact (List.nodup_cons.mp hnd).2
    have hfne : ∀ p2 ∈ rest, p2.1 ≠ f := by
      intro p2 hp2 hc
      rw [List.map_cons] at hnd
      have hmm2 : p2.1 ∈ rest.map Prod.fst := List.mem_map_of_mem Prod.fst hp2
      rw [hc] at hmm2
      exact (List.nodup_cons.mp hnd).1 hmm2
    have hkeysc : keysOf c.kvcache = keysOf pre ++ k :: keysOf suf := by
      rw [hdec, keysOf_append, keysOf_cons]
    rcases Nat.lt_or_ge c.kvcache.length c.capacity with hlt | hge
    · have hput := put_of_not_mem_small c f fv hInv hf hlt
      have hdec' : (c.put f fv).kvcache = ((f, fv) :: pre) ++ (k, vk) :: suf := by
        rw [hput, hdec]
        rfl
      have hfresh' : ∀ p2 ∈ rest, p2.1 ∉ keysOf (c.put f fv).kvcache := by
        intro p2 hp2 hc
        rw [hdec', keysOf_append, keysOf_cons, keysOf_cons] at hc
        rcases List.mem_append.mp hc with h1 | h2
        · rcases List.mem_cons.mp h1 with h3 | h4
          · exact hfne p2 hp2 h3
          · exact hfresh p2 (List.mem_cons_of_mem _ hp2)
              (by rw [hkeysc]; exact List.mem_append_left _ h4)
        · exact hfresh p2 (List.mem_cons_of_mem _ hp2)
            (by rw [hkeysc]; exact List.mem_append_right _ h2)
      show k ∈ keysOf (putSeq (c.put f fv) rest).kvcache
      exact ih (c.put f fv) ((f, fv) :: pre) suf vk hInv' hdec' hndtail hfresh'
        (by simp only [List.length_cons, put_capacity]; omega)
    · have hfull : c.kvcache.length = c.capacity := Nat.le_antisymm hInv.1 hge
      have hcap : 0 < c.capacity := by omega
      have hput := put_of_not_mem_full c f fv hInv hf hfull hcap
      have hlensum : pre.length + suf.length + 1 = c.capacity := by
        have h := hfull
        rw [hdec] at h
        simp only [List.length_append, List.length_cons] at h
        omega
      have hsufne : suf ≠ [] := by
        intro hc
        rw [hc] at hlensum
        simp only [List.length_nil] at hlensum
        omega
      have hdrop : c.kvcache.dropLast = pre ++ (k, vk) :: suf.dropLast := by
        rw [hdec, dropLast_append_of_ne_nil pre (by simp),
          dropLast_cons_of_ne_nil (k, vk) hsufne]
      have hdec' : (c.put f fv).kvcache = ((f, fv) :: pre) ++ (k, vk) :: suf.dropLast := by
        rw [hput]
        show (f, fv) :: c.kvcache.dropLast = ((f, fv) :: pre) ++ (k, vk) :: suf.dropLast
        rw [hdrop]
        rfl
      have hfresh' : ∀ p2 ∈ rest, p2.1 ∉ keysOf (c.put f fv).kvcache := by
        intro p2 hp2 hc
        rw [hdec', keysOf_append, keysOf_cons, keysOf_cons] at hc
        rcases List.mem_append.mp hc with h1 | h2
        · rcases List.mem_cons.mp h1 with h3 | h4
          · exact hfne p2 hp2 h3
          · exact hfresh p2 (List.mem_cons_of_mem _ hp2)
              (by rw [hkeysc]; exact List.mem_append_left _ h4)
        · rcases List.mem_cons.mp h2 with h3 | h4
          · exact hfresh p2 (List.mem_cons_of_mem _ hp2)
              (by rw [hkeysc]
                  exact List.mem_append_right _ (h3 ▸ List.mem_cons_self _ _))
          · exact hfresh p2 (List.mem_cons_of_mem _ hp2)
              (by rw [hkeysc]
                  exact List.mem_append_right _
                    (List.mem_cons_of_mem _ (keysOf_dropLast_subset suf h4)))
      show k ∈ keysOf (putSeq (c.put f fv) rest).kvcache
      exact ih (c.put f fv) ((f, fv) :: pre) suf.dropLast vk hInv' hdec' hndtail hfresh'
        (by simp only [List.length_cons, put_capacity]; omega)

/-! ### Capacity preservation -/

theorem get_capacity (c : LRUCache) (k : String) : ((c.get k).2).capacity = c.capacity := by
  cases hl : lookupA c.kvmap k with
  | none => rw [get_eq_of_none c k hl]
  | some v => rw [get_snd_of_some c k v hl]

theorem remove_capacity (c : LRUCache) (k : String) : (c.remove k).capacity = c.capacity := by
  cases hl : lookupA c.kvmap k with
  | none => rw [remove_eq_of_none c k hl]
  | some v => rw [remove_eq_of_some c k v hl]

theorem applyOp_capacity (c : LRUCache) (op : Op) : (applyOp c op).capacity = c.capacity := by
  cases op with
  | put k v => exact put_capacity c k v
  | get k => exact get_capacity c k
  | remove k => exact remove_capacity c k

theorem foldl_capacity (ops : List Op) (c : LRUCache) :
    (ops.foldl applyOp c).capacity = c.capacity := by
  induction ops generalizing c with
  | nil => rfl
  | cons op rest ih => rw [List.foldl_cons, ih, applyOp_capacity]

theorem run_capacity (cap : Nat) (ops : List Op) : (run cap ops).capacity = cap := by
  rw [run, foldl_capacity]
  rfl

/-! ### Claim theorems -/

/-- C1: for every `create(key, value)` call, the store upsert is issued
first and `Cache.put(key, value)` runs only if the store confirmed the
write; if connection acquisition fails or the store rejects the write,
create returns the 500 failure response and the cache is left unchanged. -/
theorem create_upsert_confirmed_before_cache_put
    (w : UpsertWorld) (jk jv : JVal) (c : LRUCache) (kn : Int)
    (hk : json_to_int64 jk = some kn) :
    cachePutConfirmed false (createHandler w jk jv c).2.2 = true ∧
    ((db_create_or_update w kn (to_string_json_value jv)).1 = false →
      (createHandler w jk jv c).1 = (500, "DB Error") ∧
      (createHandler w jk jv c).2.1 = c) ∧
    ((db_create_or_update w kn (to_string_json_value jv)).1 = true →
      (createHandler w jk jv c).1 = (200, "Created") ∧
      (createHandler w jk jv c).2.1 = c.put (toString kn) (to_string_json_value jv)) := by
  cases w with
  | noConn => simp [createHandler, db_create_or_update, hk, cachePutConfirmed]
  | nullRes => simp [createHandler, db_create_or_update, hk, cachePutConfirmed]
  | exec ok => cases ok <;> simp [createHandler, db_create_or_update, hk, cachePutConfirmed]

/-- Witness for C1: a confirmed upsert at key 7 populates the cache, at a
concrete input. -/
theorem create_upsert_confirmed_before_cache_put_witness :
    cachePutConfirmed false
      (createHandler (UpsertWorld.exec true) (JVal.jint 7) (JVal.jstr "x")
        (LRUCache.empty 2)).2.2 = true ∧
    ((db_create_or_update (UpsertWorld.exec true) 7
        (to_string_json_value (JVal.jstr "x"))).1 = false →
      (createHandler (UpsertWorld.exec true) (JVal.jint 7) (JVal.jstr "x")
        (LRUCache.empty 2)).1 = (500, "DB Error") ∧
      (createHandler (UpsertWorld.exec true) (JVal.jint 7) (JVal.jstr "x")
        (LRUCache.empty 2)).2.1 = LRUCache.empty 2) ∧
    ((db_create_or_update (UpsertWorld.exec true) 7
        (to_string_json_value (JVal.jstr "x"))).1 = true →
      (createHandler (UpsertWorld.exec true) (JVal.jint 7) (JVal.jstr "x")
        (LRUCache.empty 2)).1 = (200, "Created") ∧
      (createHandler (UpsertWorld.exec true) (JVal.jint 7) (JVal.jstr "x")
        (LRUCache.empty 2)).2.1 =
        (LRUCache.empty 2).put (toString (7 : Int)) (to_string_json_value (JVal.jstr "x"))) :=
  create_upsert_confirmed_before_cache_put (UpsertWorld.exec true) (JVal.jint 7)
    (JVal.jstr "x") (LRUCache.empty 2) 7 (by decide)

/-- C2 counterexample: with an empty cache and key "7", a read with the
connection unavailable and a read with the key absent from the store
return the same `(404, "Not found")` outcome — the unavailable outcome is
not distinct from not-found. -/
theorem read_unavailable_conflated_with_notfound_cex :
    (readHandler ReadWorld.noConn "7" (LRUCache.empty 100)).1 = (404, "Not found") ∧
    (readHandler (ReadWorld.rows none) "7" (LRUCache.empty 100)).1 = (404, "Not found") ∧
    (readHandler ReadWorld.noConn "7" (LRUCache.empty 100)).1 =
      (readHandler (ReadWorld.rows none) "7" (LRUCache.empty 100)).1 := by
  decide

/-- C2 amended: on a cache miss, every failing store outcome of read —
connection unavailable, null result, bad result status, or zero rows
(key absent) — produces the same `(404, "Not found")` response with the
cache unchanged; the code does not distinguish unavailable from
not-found. -/
theorem read_failure_conflated_with_notfound
    (w : ReadWorld) (ks : String) (c : LRUCache) (kn : Int)
    (hmiss : (c.get ks).1 = none) (hk : str_to_int64 ks = some kn)
    (hfail : (db_read w kn).1 = none) :
    (readHandler w ks c).1 = (404, "Not found") ∧ (readHandler w ks c).2.1 = c := by
  have hstate : (c.get ks).2 = c := get_miss_state c ks hmiss
  have hpair : c.get ks = (none, c) := Prod.ext hmiss hstate
  simp [readHandler, hpair, hk, hfail]

/-- Witness for C2 amended: connection-unavailable read of key "7" on an
empty cache, at a concrete input. -/
theorem read_failure_conflated_with_notfound_witness :
    (readHandler ReadWorld.noConn "7" (LRUCache.empty 2)).1 = (404, "Not found") ∧
    (readHandler ReadWorld.noConn "7" (LRUCache.empty 2)).2.1 = LRUCache.empty 2 :=
  read_failure_conflated_with_notfound ReadWorld.noConn "7" (LRUCache.empty 2) 7
    (by decide) (by decide) (by decide)

/-- C3 counterexample: capacity 1, cache holding key "k"; after `get "k"`
and `capacity` (= 1) consecutive puts of distinct new keys, "k" has been
evicted, contradicting the claim that it is still present. -/
theorem recency_capacity_inserts_evict_cex :
    keysOf ((((LRUCache.empty 1).put "k" "a").get "k").2.put "n" "b").kvcache = ["n"] ∧
    lookupA ((((LRUCache.empty 1).put "k" "a").get "k").2.put "n" "b").kvmap "k" = none := by
  decide

/-- C3 amended: for every invariant cache containing key `k`, performing
`get k` and then at most `capacity - 1` consecutive puts of pairwise
distinct keys not previously in the cache leaves `k` still present (the
`capacity`-th such insertion is exactly the one that evicts `k`). -/
theorem recency_capacity_minus_one_keeps_key
    (c : LRUCache) (k vk : String) (ps : List (String × String))
    (hInv : Inv c) (hhit : (c.get k).1 = some vk)
    (hnd : (ps.map Prod.fst).Nodup)
    (hfresh : ∀ p ∈ ps, p.1 ∉ keysOf c.kvcache)
    (hlen : ps.length ≤ c.capacity - 1) :
    k ∈ keysOf (putSeq (c.get k).2 ps).kvcache := by
  obtain ⟨hle, hndc, hndm, hagree⟩ := hInv
  have hl : lookupA c.kvmap k = some vk := by
    rw [← get_fst_eq]
    exact hhit
  have hmem : k ∈ keysOf c.kvcache := by
    rw [mem_keysOf_iff, ← hagree k, hl]
    rfl
  have hpos : 0 < c.kvcache.length := by
    have hne : keysOf c.kvcache ≠ [] := List.ne_nil_of_mem hmem
    have : keysOf c.kvcache = List.map Prod.fst c.kvcache := rfl
    cases hc : c.kvcache with
    | nil => exact absurd (by rw [this, hc]; rfl) hne
    | cons a t => simp [hc]
  have hcap : 0 < c.capacity := Nat.lt_of_lt_of_le hpos hle
  have hget := get_snd_of_some c k vk hl
  have hdec : (c.get k).2.kvcache = [] ++ (k, vk) :: eraseKey c.kvcache k := by
    rw [hget]
    rfl
  have hfresh' : ∀ p ∈ ps, p.1 ∉ keysOf (c.get k).2.kvcache := by
    intro p hp hc
    rw [hget] at hc
    have hc2 : p.1 ∈ k :: keysOf (eraseKey c.kvcache k) := hc
    rcases List.mem_cons.mp hc2 with h1 | h2
    · exact hfresh p hp (h1 ▸ hmem)
    · exact hfresh p hp (keysOf_eraseKey_subset h2)
  have hbound : ([] : List (String × String)).length + ps.length < (c.get k).2.capacity := by
    rw [get_capacity]
    simp only [List.length_nil]
    omega
  exact putSeq_keeps_mem k ps (c.get k).2 [] (eraseKey c.kvcache k) vk
    (get_inv c k ⟨hle, hndc, hndm, hagree⟩) hdec hnd hfresh' hbound

/-- Witness for C3 amended: capacity 2, key "1" cached; one fresh put
after `get "1"` keeps "1" cached, at a concrete input. -/
theorem recency_capacity_minus_one_keeps_key_witness :
    "1" ∈ keysOf (putSeq
      ((⟨2, [("1", "a")], [("1", "a")]⟩ : LRUCache).get "1").2 [("2", "b")]).kvcache :=
  recency_capacity_minus_one_keeps_key ⟨2, [("1", "a")], [("1", "a")]⟩ "1" "a" [("2", "b")]
    ⟨by decide, by decide, by decide, fun _ => rfl⟩ (by decide) (by decide) (by decide)
    (by decide)

/-- C4 counterexample: "7" and "07" denote the same 64-bit integer
(both parse to 7), yet after `create` of key 7 (cached as "7") a
`read "07"` misses the cache, reads the store row and installs a second
cache entry under the raw string "07" — the two string forms do not
address the same cache entry. -/
theorem key_normalization_cache_cex :
    str_to_int64 "7" = some 7 ∧ str_to_int64 "07" = some 7 ∧
    keysOf ((readHandler (ReadWorld.rows (some "x")) "07"
      ((createHandler (UpsertWorld.exec true) (JVal.jint 7) (JVal.jstr "x")
        (LRUCache.empty 100)).2.1)).2.1).kvcache = ["07", "7"] := by
  decide

/-- C4 amended: the key string is normalized to its canonical 64-bit
integer before every store access, and `create` also puts the canonical
decimal string into the cache; but `read` and `delete` access the cache
under the raw path string, so distinct string forms of the same integer
occupy distinct cache entries. -/
theorem keys_normalized_for_store_raw_for_cache :
    (∀ (w : UpsertWorld) (jk jv : JVal) (c : LRUCache) (kn : Int),
      json_to_int64 jk = some kn →
      (db_create_or_update w kn (to_string_json_value jv)).1 = true →
      (createHandler w jk jv c).2.1 = c.put (toString kn) (to_string_json_value jv)) ∧
    (∀ (w : ReadWorld) (ks : String) (c : LRUCache) (kn : Int) (v : String),
      (c.get ks).1 = none → str_to_int64 ks = some kn → (db_read w kn).1 = some v →
      (readHandler w ks c).2.1 = c.put ks v ∧
      Event.dbRead kn true ∈ (readHandler w ks c).2.2) ∧
    (∀ (w : DeleteWorld) (ks : String) (c : LRUCache) (kn : Int),
      str_to_int64 ks = some kn → (db_delete w kn).1 = true →
      (deleteHandler w ks c).2.1 = c.remove ks) := by
  refine ⟨?_, ?_, ?_⟩
  · intro w jk jv c kn hk hok
    cases w with
    | noConn => simp [db_create_or_update] at hok
    | nullRes => simp [db_create_or_update] at hok
    | exec ok =>
      simp [db_create_or_update] at hok
      simp [createHandler, db_create_or_update, hk, hok]
  · intro w ks c kn v hmiss hk hdb
    have hstate : (c.get ks).2 = c := get_miss_state c ks hmiss
    have hpair : c.get ks = (none, c) := Prod.ext hmiss hstate
    cases w with
    | noConn => simp [db_read] at hdb
    | nullRes => simp [db_read] at hdb
    | badStatus => simp [db_read] at hdb
    | rows r =>
      simp [db_read] at hdb
      simp [readHandler, hpair, hk, db_read, hdb]
  · intro w ks c kn hk hok
    cases w with
    | noConn => simp [db_delete] at hok
    | nullRes => simp [db_delete] at hok
    | result ok n =>
      simp [db_delete] at hok
      simp [deleteHandler, db_delete, hk, hok]

/-- Witness for C4 amended, at concrete inputs: create caches the
canonical "7", read of path "07" caches raw "07", delete removes the raw
path string. -/
theorem keys_normalized_for_store_raw_for_cache_witness :
    (createHandler (UpsertWorld.exec true) (JVal.jint 7) (JVal.jstr "x")
      (LRUCache.empty 2)).2.1 =
      (LRUCache.empty 2).put (toString (7 : Int)) (to_string_json_value (JVal.jstr "x")) ∧
    ((readHandler (ReadWorld.rows (some "x")) "07" (LRUCache.empty 2)).2.1 =
      (LRUCache.empty 2).put "07" "x" ∧
      Event.dbRead 7 true ∈ (readHandler (ReadWorld.rows (some "x")) "07"
        (LRUCache.empty 2)).2.2) ∧
    (deleteHandler (DeleteWorld.result true 1) "07" (LRUCache.empty 2)).2.1 =
      (LRUCache.empty 2).remove "07" :=
  ⟨keys_normalized_for_store_raw_for_cache.1 (UpsertWorld.exec true) (JVal.jint 7)
      (JVal.jstr "x") (LRUCache.empty 2) 7 (by decide) (by decide),
   keys_normalized_for_store_raw_for_cache.2.1 (ReadWorld.rows (some "x")) "07"
      (LRUCache.empty 2) 7 "x" (by decide) (by decide) (by decide),
   keys_normalized_for_store_raw_for_cache.2.2 (DeleteWorld.result true 1) "07"
      (LRUCache.empty 2) 7 (by decide) (by decide)⟩

/-- C5: every cache state reachable from an empty cache of positive
capacity by put/get/remove operations keeps the recency list within
capacity, keeps keys unique in list and index, and keeps the index in
exact agreement with the list (a key is indexed iff its node is in the
list, with the index giving that node's content). -/
theorem cache_invariant_reachable (cap : Nat) (ops : List Op) (_hcap : 0 < cap) :
    (run cap ops).kvcache.length ≤ cap ∧
    (keysOf (run cap ops).kvcache).Nodup ∧
    (keysOf (run cap ops).kvmap).Nodup ∧
    ∀ k, lookupA (run cap ops).kvmap k = lookupA (run cap ops).kvcache k := by
  have h : Inv (run cap ops) := foldl_inv ops (LRUCache.empty cap) (empty_inv cap)
  obtain ⟨h1, h2, h3, h4⟩ := h
  rw [run_capacity cap ops] at h1
  exact ⟨h1, h2, h3, h4⟩

/-- Witness for C5 at a concrete operation sequence on capacity 2. -/
theorem cache_invariant_reachable_witness :
    (run 2 [Op.put "1" "a", Op.put "2" "b", Op.get "1", Op.put "3" "c",
      Op.remove "2"]).kvcache.length ≤ 2 ∧
    (keysOf (run 2 [Op.put "1" "a", Op.put "2" "b", Op.get "1", Op.put "3" "c",
      Op.remove "2"]).kvcache).Nodup ∧
    (keysOf (run 2 [Op.put "1" "a", Op.put "2" "b", Op.get "1", Op.put "3" "c",
      Op.remove "2"]).kvmap).Nodup ∧
    ∀ k, lookupA (run 2 [Op.put "1" "a", Op.put "2" "b", Op.get "1", Op.put "3" "c",
      Op.remove "2"]).kvmap k =
      lookupA (run 2 [Op.put "1" "a", Op.put "2" "b", Op.get "1", Op.put "3" "c",
        Op.remove "2"]).kvcache k :=
  cache_invariant_reachable 2
    [Op.put "1" "a", Op.put "2" "b", Op.get "1", Op.put "3" "c", Op.remove "2"]
    (by decide)

/-- C6 counterexample: on a capacity-0 cache, `put "1" "a"` succeeds but
leaves the cache empty — the key is not present afterwards, contradicting
"leaves k present with value v as the most-recently-used entry". -/
theorem put_capacity_zero_cex :
    lookupA ((LRUCache.empty 0).put "1" "a").kvmap "1" = none ∧
    ((LRUCache.empty 0).put "1" "a").kvcache = [] := by
  decide

/-- C6 amended: for every invariant cache state of positive capacity,
`put(k, v)` always succeeds, leaves `k` present with value `v` as the
most-recently-used (head) entry, and evicts the least-recently-used
(back) entry exactly when `k` is a new key inserted into a full cache;
otherwise no entry is evicted. -/
theorem put_mru_eviction_spec (c : LRUCache) (k v : String)
    (hInv : Inv c) (hcap : 0 < c.capacity) :
    (c.put k v).kvcache.head? = some (k, v) ∧
    lookupA (c.put k v).kvmap k = some v ∧
    (k ∉ keysOf c.kvcache → c.kvcache.length < c.capacity →
      (c.put k v).kvcache = (k, v) :: c.kvcache) ∧
    (k ∉ keysOf c.kvcache → c.kvcache.length = c.capacity →
      (c.put k v).kvcache = (k, v) :: c.kvcache.dropLast) ∧
    (k ∈ keysOf c.kvcache →
      (c.put k v).kvcache = (k, v) :: eraseKey c.kvcache k ∧
      (c.put k v).kvcache.length = c.kvcache.length) := by
  by_cases hmem : k ∈ keysOf c.kvcache
  · rw [put_of_mem c k v hInv hmem]
    refine ⟨rfl, by rw [lookupA_cons, if_pos rfl], fun h => absurd hmem h,
      fun h => absurd hmem h, fun _ => ⟨rfl, ?_⟩⟩
    show ((k, v) :: eraseKey c.kvcache k).length = c.kvcache.length
    have := length_eraseKey_of_mem hmem
    simp only [List.length_cons]
    omega
  · rcases Nat.lt_or_ge c.kvcache.length c.capacity with hlt | hge
    · rw [put_of_not_mem_small c k v hInv hmem hlt]
      exact ⟨rfl, by rw [lookupA_cons, if_pos rfl], fun _ _ => rfl,
        fun _ hfull => absurd hfull (Nat.ne_of_lt hlt), fun h => absurd h hmem⟩
    · have hfull : c.kvcache.length = c.capacity := Nat.le_antisymm hInv.1 hge
      rw [put_of_not_mem_full c k v hInv hmem hfull hcap]
      exact ⟨rfl, by rw [lookupA_cons, if_pos rfl],
        fun _ hlt => absurd hfull (Nat.ne_of_lt hlt), fun _ _ => rfl,
        fun h => absurd h hmem⟩

/-- Witness for C6 amended at a concrete full cache of capacity 1:
putting new key "2" makes it the head and evicts "1". -/
theorem put_mru_eviction_spec_witness :
    ((⟨1, [("1", "a")], [("1", "a")]⟩ : LRUCache).put "2" "b").kvcache.head? =
      some ("2", "b") ∧
    lookupA ((⟨1, [("1", "a")], [("1", "a")]⟩ : LRUCache).put "2" "b").kvmap "2" =
      some "b" ∧
    ("2" ∉ keysOf ([("1", "a")] : List (String × String)) →
      ([("1", "a")] : List (String × String)).length < 1 →
      ((⟨1, [("1", "a")], [("1", "a")]⟩ : LRUCache).put "2" "b").kvcache =
        ("2", "b") :: [("1", "a")]) ∧
    ("2" ∉ keysOf ([("1", "a")] : List (String × String)) →
      ([("1", "a")] : List (String × String)).length = 1 →
      ((⟨1, [("1", "a")], [("1", "a")]⟩ : LRUCache).put "2" "b").kvcache =
        ("2", "b") :: ([("1", "a")] : List (String × String)).dropLast) ∧
    ("2" ∈ keysOf ([("1", "a")] : List (String × String)) →
      ((⟨1, [("1", "a")], [("1", "a")]⟩ : LRUCache).put "2" "b").kvcache =
        ("2", "b") :: eraseKey [("1", "a")] "2" ∧
      ((⟨1, [("1", "a")], [("1", "a")]⟩ : LRUCache).put "2" "b").kvcache.length =
        ([("1", "a")] : List (String × String)).length) :=
  put_mru_eviction_spec ⟨1, [("1", "a")], [("1", "a")]⟩ "2" "b"
    ⟨by decide, by decide, by decide, fun _ => rfl⟩ (by decide)

/-- C7: for every `delete(key)` call, `Cache.remove(key)` is invoked iff
the store confirms at least one row was removed; when the store reports
zero affected rows (or any failure), the handler returns the 500 failure
response and the cache is untouched. -/
theorem delete_cache_remove_iff_row_deleted
    (w : DeleteWorld) (ks : String) (c : LRUCache) (kn : Int)
    (hk : str_to_int64 ks = some kn) :
    (Event.cacheRemove ks ∈ (deleteHandler w ks c).2.2 ↔ (db_delete w kn).1 = true) ∧
    ((db_delete w kn).1 = false →
      (deleteHandler w ks c).1 = (500, "Not found") ∧
      (deleteHandler w ks c).2.1 = c) ∧
    ((db_delete w kn).1 = true →
      (deleteHandler w ks c).1 = (200, "Deleted") ∧
      (deleteHandler w ks c).2.1 = c.remove ks) := by
  cases w with
  | noConn => simp [deleteHandler, db_delete, hk]
  | nullRes => simp [deleteHandler, db_delete, hk]
  | result ok n =>
    cases ok with
    | false => simp [deleteHandler, db_delete, hk]
    | true =>
      by_cases hn : 0 < n <;> simp [deleteHandler, db_delete, hk, hn, Nat.not_lt.mp]

/-- Witness for C7: store confirms one deleted row for key "5", at a
concrete input. -/
theorem delete_cache_remove_iff_row_deleted_witness :
    (Event.cacheRemove "5" ∈
      (deleteHandler (DeleteWorld.result true 1) "5" (LRUCache.empty 2)).2.2 ↔
      (db_delete (DeleteWorld.result true 1) 5).1 = true) ∧
    ((db_delete (DeleteWorld.result true 1) 5).1 = false →
      (deleteHandler (DeleteWorld.result true 1) "5" (LRUCache.empty 2)).1 =
        (500, "Not found") ∧
      (deleteHandler (DeleteWorld.result true 1) "5" (LRUCache.empty 2)).2.1 =
        LRUCache.empty 2) ∧
    ((db_delete (DeleteWorld.result true 1) 5).1 = true →
      (deleteHandler (DeleteWorld.result true 1) "5" (LRUCache.empty 2)).1 =
        (200, "Deleted") ∧
      (deleteHandler (DeleteWorld.result true 1) "5" (LRUCache.empty 2)).2.1 =
        (LRUCache.empty 2).remove "5") :=
  delete_cache_remove_iff_row_deleted (DeleteWorld.result true 1) "5"
    (LRUCache.empty 2) 5 (by decide)

/-- C8: for every `acquire()` on an already-connected worker whose
connection status is good: under 5 elapsed seconds the existing
connection is returned with no probe; at 5 or more, a liveness probe is
issued — on success `last_checked` is refreshed and the existing
connection returned; on failure the stale connection is closed and
exactly one reconnection attempted, returning unavailable if it fails and
otherwise the new connection with a refreshed `last_checked`. -/
theorem acquire_health_check_spec (s : PGState) (now : Nat) (w : PGWorld) (cid : Nat)
    (hconn : s.conn = some cid) (hstatus : w.statusOk = true) :
    (now - s.lastPing < 5 →
      get_connection s now w = (some cid, s, [])) ∧
    (5 ≤ now - s.lastPing → w.probeOk = true →
      get_connection s now w = (some cid, ⟨some cid, now⟩, [PGEvent.probe true])) ∧
    (5 ≤ now - s.lastPing → w.probeOk = false → w.connectOk = false →
      get_connection s now w =
        (none, ⟨none, s.lastPing⟩,
          [PGEvent.probe false, PGEvent.finish, PGEvent.connect false])) ∧
    (5 ≤ now - s.lastPing → w.probeOk = false → w.connectOk = true →
      get_connection s now w =
        (some w.newConnId, ⟨some w.newConnId, now⟩,
          [PGEvent.probe false, PGEvent.finish, PGEvent.connect true])) := by
  refine ⟨?_, ?_, ?_, ?_⟩
  · intro h1
    have h2 : ¬ 5 ≤ now - s.lastPing := by omega
    simp [get_connection, hconn, hstatus, h2]
  · intro h1 h2
    simp [get_connection, hconn, hstatus, h1, h2]
  · intro h1 h2 h3
    simp [get_connection, hconn, hstatus, h1, h2, h3]
  · intro h1 h2 h3
    simp [get_connection, hconn, hstatus, h1, h2, h3]

/-- Witness for C8 at a concrete stale state: probe fails, the single
reconnection succeeds and refreshes the timestamp. -/
theorem acquire_health_check_spec_witness :
    (10 - (⟨some 1, 0⟩ : PGState).lastPing < 5 →
      get_connection ⟨some 1, 0⟩ 10 ⟨true, false, true, 2⟩ =
        (some 1, ⟨some 1, 0⟩, [])) ∧
    (5 ≤ 10 - (⟨some 1, 0⟩ : PGState).lastPing →
      (⟨true, false, true, 2⟩ : PGWorld).probeOk = true →
      get_connection ⟨some 1, 0⟩ 10 ⟨true, false, true, 2⟩ =
        (some 1, ⟨some 1, 10⟩, [PGEvent.probe true])) ∧
    (5 ≤ 10 - (⟨some 1, 0⟩ : PGState).lastPing →
      (⟨true, false, true, 2⟩ : PGWorld).probeOk = false →
      (⟨true, false, true, 2⟩ : PGWorld).connectOk = false →
      get_connection ⟨some 1, 0⟩ 10 ⟨true, false, true, 2⟩ =
        (none, ⟨none, (⟨some 1, 0⟩ : PGState).lastPing⟩,
          [PGEvent.probe false, PGEvent.finish, PGEvent.connect false])) ∧
    (5 ≤ 10 - (⟨some 1, 0⟩ : PGState).lastPing →
      (⟨true, false, true, 2⟩ : PGWorld).probeOk = false →
      (⟨true, false, true, 2⟩ : PGWorld).connectOk = true →
      get_connection ⟨some 1, 0⟩ 10 ⟨true, false, true, 2⟩ =
        (some (⟨true, false, true, 2⟩ : PGWorld).newConnId,
          ⟨some (⟨true, false, true, 2⟩ : PGWorld).newConnId, 10⟩,
          [PGEvent.probe false, PGEvent.finish, PGEvent.connect true])) :=
  acquire_health_check_spec ⟨some 1, 0⟩ 10 ⟨true, false, true, 2⟩ 1 (by decide) (by decide)

/-- C9: `json_to_int64` accepts a floating-point JSON key and produces
the integer obtained by truncating the double toward zero (7.9 becomes
key 7), rather than rejecting it; the create handler therefore treats a
request with key 7.9 exactly like one with integer key 7. -/
theorem json_float_key_truncates :
    (∀ q : ℚ, json_to_int64 (JVal.jfloat q) = some (truncToInt q)) ∧
    json_to_int64 (JVal.jfloat (Rat.mk' 79 10)) = some 7 ∧
    json_to_int64 (JVal.jfloat (Rat.mk' (-79) 10)) = some (-7) ∧
    (∀ (w : UpsertWorld) (jv : JVal) (c : LRUCache),
      createHandler w (JVal.jfloat (Rat.mk' 79 10)) jv c =
        createHandler w (JVal.jint 7) jv c) := by
  refine ⟨fun q => rfl, by decide, by decide, ?_⟩
  intro w jv c
  have h7 : json_to_int64 (JVal.jfloat (Rat.mk' 79 10)) = some 7 := by decide
  have h8 : json_to_int64 (JVal.jint 7) = some 7 := rfl
  unfold createHandler
  rw [h7, h8]

/-- C10: for every invariant cache state and every put on a key already
present, the operation overwrites the value, moves the entry to the
front, and changes nothing else: total size is unchanged and every other
key is present afterwards iff it was present before. -/
theorem put_existing_key_frame (c : LRUCache) (k v : String)
    (hInv : Inv c) (hmem : k ∈ keysOf c.kvcache) :
    lookupA (c.put k v).kvmap k = some v ∧
    (c.put k v).kvcache.head? = some (k, v) ∧
    (c.put k v).kvcache.length = c.kvcache.length ∧
    (∀ k', k' ≠ k → (k' ∈ keysOf (c.put k v).kvcache ↔ k' ∈ keysOf c.kvcache)) := by
  rw [put_of_mem c k v hInv hmem]
  refine ⟨by rw [lookupA_cons, if_pos rfl], rfl, ?_, ?_⟩
  · show ((k, v) :: eraseKey c.kvcache k).length = c.kvcache.length
    have := length_eraseKey_of_mem hmem
    simp only [List.length_cons]
    omega
  · intro k' hk
    show k' ∈ keysOf ((k, v) :: eraseKey c.kvcache k) ↔ k' ∈ keysOf c.kvcache
    rw [keysOf_cons, List.mem_cons]
    constructor
    · intro h
      rcases h with h1 | h2
      · exact absurd h1 hk
      · exact keysOf_eraseKey_subset h2
    · intro h
      right
      rw [mem_keysOf_iff, lookupA_eraseKey_ne hk, ← mem_keysOf_iff]
      exact h

/-- Witness for C10 at a concrete two-entry cache: overwriting key "2"
keeps the size and the other key. -/
theorem put_existing_key_frame_witness :
    lookupA ((⟨2, [("1", "a"), ("2", "b")], [("1", "a"), ("2", "b")]⟩ : LRUCache).put
      "2" "c").kvmap "2" = some "c" ∧
    ((⟨2, [("1", "a"), ("2", "b")], [("1", "a"), ("2", "b")]⟩ : LRUCache).put
      "2" "c").kvcache.head? = some ("2", "c") ∧
    ((⟨2, [("1", "a"), ("2", "b")], [("1", "a"), ("2", "b")]⟩ : LRUCache).put
      "2" "c").kvcache.length =
      ([("1", "a"), ("2", "b")] : List (String × String)).length ∧
    (∀ k', k' ≠ "2" →
      (k' ∈ keysOf ((⟨2, [("1", "a"), ("2", "b")], [("1", "a"), ("2", "b")]⟩ :
        LRUCache).put "2" "c").kvcache ↔
       k' ∈ keysOf [("1", "a"), ("2", "b")])) :=
  put_existing_key_frame ⟨2, [("1", "a"), ("2", "b")], [("1", "a"), ("2", "b")]⟩ "2" "c"
    ⟨by decide, by decide, by decide, fun _ => rfl⟩ (by decide)

end KV
